import Mathlib

/-!
Verification development for the repository's specified schema validation
and coercion engine (spec §4.1) and for three route handlers of the source
snippets (`src/xiv_handling_errors.py`, `src/iv_request_body.py`,
`src/xii_extra_models.py`).

The engine itself has no implementation under `src/`: the snippets only
declare schemas (pydantic models) and call the framework.  Definitions in
the `Engine` namespace are therefore modelled from the spec, as noted in
their doc comments.  Handler code under `src/` is embedded directly.
-/

namespace Engine

/-- Modelled from the spec: primitive type tags for scalar schema kinds
(§3 "for scalar kinds a primitive type tag"). -/
inductive Prim where
  | str
  | int
  | float
  | bool
  | date
  | url
  deriving DecidableEq, Repr

/-- Modelled from the spec: the coerced, typed result of a successful
validation (§3 "Validation Outcome ... a `Value`").  Numbers are modelled
exactly: integers as `Int`, floats as `Rat` (the spec's numeric bounds are
"evaluated on the coerced numeric type with no implicit rounding"). -/
inductive Value where
  | null
  | str (s : String)
  | int (n : Int)
  | float (q : Rat)
  | bool (b : Bool)
  | date (iso : String)
  | url (s : String)
  | arr (xs : List Value)
  | obj (fields : List (String × Value))
  | mapV (pairs : List (Value × Value))

/-- Modelled from the spec: untyped raw input (§3 "Raw Input — untyped data
(mapping, sequence, string, number, boolean, null)").  JSON distinguishes
integer literals from fractional literals, so both raw number forms appear;
object keys are always strings, as in JSON. -/
inductive Raw where
  | null
  | str (s : String)
  | int (n : Int)
  | float (q : Rat)
  | bool (b : Bool)
  | arr (xs : List Raw)
  | obj (entries : List (String × Raw))

/-- Modelled from the spec: one step of a location path (§3 "ordered
sequence of field names / indices from the document root"). -/
inductive PathItem where
  | field (name : String)
  | idx (i : Nat)
  | key (k : String)
  deriving DecidableEq, Repr

/-- Modelled from the spec: declared constraints (§3 "a mapping of
constraint name to constraint parameter (e.g., `min_length`, `max_length`,
`pattern`, `ge`, `gt`, `le`, `lt`, `multiple_of`)").  The regex `pattern`
constraint is outside the modelled scope (no claim mentions it). -/
inductive Constraint where
  | minLength (n : Nat)
  | maxLength (n : Nat)
  | ge (q : Rat)
  | gt (q : Rat)
  | le (q : Rat)
  | lt (q : Rat)
  | multipleOf (q : Rat)
  deriving DecidableEq, Repr

/-- Modelled from the spec: error kinds of §7, each carrying its location
path.  `noUnionVariantMatched` carries the per-candidate sub-error lists. -/
inductive FieldError where
  | missingRequiredField (path : List PathItem)
  | typeCoercionError (path : List PathItem) (expected : String) (observed : String)
  | constraintViolation (path : List PathItem) (cname : String) (actual : Value)
  | unexpectedField (path : List PathItem)
  | noUnionVariantMatched (path : List PathItem) (subErrors : List (List FieldError))
  | tooDeeplyNested (path : List PathItem)

/-- Modelled from the spec: a validation outcome is either a `Value` or a
non-empty list of `FieldError`s (§3 "Validation Outcome"). -/
inductive Outcome where
  | ok (v : Value)
  | errs (es : List FieldError)

/-- Modelled from the spec: policy for raw keys not in an object's declared
field set (§4.1 step 4 `extra_fields_policy`). -/
inductive ExtraPolicy where
  | ignore
  | forbid
  deriving DecidableEq, Repr

/-- Modelled from the spec: the schema node tree (§3).  An object field is
`(name, required flag, default value, field schema)`, following §3's
"ordered mapping from field name to (Schema Node, required flag, default
value)".  A `union` node holds its candidates in declared order; an `enum`
node holds its fixed set of accepted values. -/
inductive SchemaNode where
  | scalar (p : Prim) (cs : List Constraint)
  | opt (inner : SchemaNode)
  | listS (elem : SchemaNode) (cs : List Constraint)
  | setS (elem : SchemaNode)
  | mapS (keyPrim : Prim) (valueSchema : SchemaNode)
  | object (policy : ExtraPolicy) (fields : List (String × Bool × Option Value × SchemaNode))
  | union (cands : List SchemaNode)
  | enum (accepted : List Value)

/-- Modelled from the spec: observed-kind tag attached to
`TypeCoercionError` ("carries the expected kind + the raw value's observed
kind"). -/
def rawKindName : Raw → String
  | .null => "null"
  | .str _ => "string"
  | .int _ => "integer"
  | .float _ => "float"
  | .bool _ => "boolean"
  | .arr _ => "array"
  | .obj _ => "object"

/-- Modelled from the spec: name of a primitive kind, used as the expected
kind in `TypeCoercionError`. -/
def primName : Prim → String
  | .str => "string"
  | .int => "integer"
  | .float => "float"
  | .bool => "boolean"
  | .date => "date-time"
  | .url => "URL-string"

/-- Accumulate the decimal value of a digit run; `none` when a non-digit
appears.  Helper for the spec's "numeric strings to integers only if the
string is a canonical base-10 integer literal" coercion rule. -/
def digitsToNat (acc : Nat) : List Char → Option Nat
  | [] => some acc
  | c :: cs => if c.isDigit then digitsToNat (acc * 10 + (c.toNat - 48)) cs else none

/-- Modelled from the spec: string-to-integer coercion (§4.1 step 2:
"numeric strings to integers only if the string is a base-10 integer
literal with optional leading minus, no thousands separators"). -/
def parseIntString (s : String) : Option Int :=
  match s.toList with
  | [] => none
  | c :: rest =>
    if c = '-' then
      if rest.isEmpty then none
      else (digitsToNat 0 rest).map (fun n => -(n : Int))
    else (digitsToNat 0 (c :: rest)).map Int.ofNat

/-- The spec's stated acceptance condition for integer map keys, stated in
its own words for comparison with `parseIntString`: the string is
"composed purely of decimal digits (optionally prefixed with `-`)", with
at least one digit. -/
def isIntKeyFormat (s : String) : Bool :=
  match s.toList with
  | [] => false
  | c :: rest =>
    if c = '-' then !rest.isEmpty && rest.all Char.isDigit
    else (c :: rest).all Char.isDigit

/-- Modelled from the spec: shape check for ISO-8601 calendar dates
(`YYYY-MM-DD`), the accepted source form of the `date-time` kind ("dates
render as ISO-8601 strings", §6). -/
def isIsoDate (s : String) : Bool :=
  match s.toList with
  | [y1, y2, y3, y4, '-', m1, m2, '-', d1, d2] =>
    y1.isDigit && y2.isDigit && y3.isDigit && y4.isDigit &&
    m1.isDigit && m2.isDigit && d1.isDigit && d2.isDigit
  | _ => false

/-- Modelled from the spec: shape check for the `URL-string` kind. -/
def isUrlString (s : String) : Bool :=
  s.startsWith "http://" || s.startsWith "https://"

/-- Modelled from the spec: the fixed, total scalar coercion table (§4.1
step 2).  Floats accept integer input by widening; booleans accept only the
native boolean and the literal tokens `true`/`false`; everything else is a
coercion error reporting the observed kind. -/
def coerceScalar (p : Prim) (raw : Raw) : Except String Value :=
  match p, raw with
  | .str, .str s => .ok (.str s)
  | .int, .int n => .ok (.int n)
  | .int, .str s =>
    match parseIntString s with
    | some n => .ok (.int n)
    | none => .error (rawKindName raw)
  | .float, .float q => .ok (.float q)
  | .float, .int n => .ok (.float (n : Rat))
  | .bool, .bool b => .ok (.bool b)
  | .bool, .str s =>
    if s = "true" then .ok (.bool true)
    else if s = "false" then .ok (.bool false)
    else .error (rawKindName raw)
  | .date, .str s => if isIsoDate s then .ok (.date s) else .error (rawKindName raw)
  | .url, .str s => if isUrlString s then .ok (.url s) else .error (rawKindName raw)
  | _, _ => .error (rawKindName raw)

/-- Modelled from the spec: map-key coercion through the key schema (§4.1
step 4: "coercing keys through the key schema (enabling the string keys
that are pure integers get converted to integer keys behavior)").  JSON
keys arrive as strings; only string and integer key kinds are in the
modelled scope. -/
def coerceKey (p : Prim) (k : String) : Option Value :=
  match p with
  | .str => some (.str k)
  | .int => (parseIntString k).map Value.int
  | _ => none

/-- Size of a value for length/size constraints; string length counts
Unicode scalar values, not bytes (§4.1 step 3). -/
def valueSize : Value → Option Nat
  | .str s => some s.length
  | .arr xs => some xs.length
  | .obj fs => some fs.length
  | .mapV ps => some ps.length
  | _ => none

/-- Numeric view of a value for range constraints. -/
def valueNum : Value → Option Rat
  | .int n => some (n : Rat)
  | .float q => some q
  | _ => none

/-- Modelled from the spec: evaluate one declared constraint against a
coerced value (§4.1 step 3).  A constraint that does not apply to the
value's shape holds vacuously. -/
def constraintHolds (c : Constraint) (v : Value) : Bool :=
  match c with
  | .minLength n => match valueSize v with | some k => n ≤ k | none => true
  | .maxLength n => match valueSize v with | some k => k ≤ n | none => true
  | .ge q => match valueNum v with | some x => q ≤ x | none => true
  | .gt q => match valueNum v with | some x => q < x | none => true
  | .le q => match valueNum v with | some x => x ≤ q | none => true
  | .lt q => match valueNum v with | some x => x < q | none => true
  | .multipleOf q => match valueNum v with | some x => x / q = ⌊x / q⌋ | none => true

/-- Constraint name carried by `ConstraintViolation` (§7). -/
def constraintName : Constraint → String
  | .minLength _ => "min_length"
  | .maxLength _ => "max_length"
  | .ge _ => "ge"
  | .gt _ => "gt"
  | .le _ => "le"
  | .lt _ => "lt"
  | .multipleOf _ => "multiple_of"

/-- Fixed evaluation order of §4.1 step 3: length/size constraints before
numeric range constraints. -/
def isLengthConstraint : Constraint → Bool
  | .minLength _ => true
  | .maxLength _ => true
  | _ => false

/-- Modelled from the spec: check every declared constraint in the fixed
order, collecting every failing one as a separate `ConstraintViolation`
(§4.1 step 3, fail-slow). -/
def constraintErrors (cs : List Constraint) (v : Value) (path : List PathItem) :
    List FieldError :=
  let ordered := cs.filter isLengthConstraint ++ cs.filter (fun c => !isLengthConstraint c)
  (ordered.filter (fun c => !constraintHolds c v)).map
    (fun c => .constraintViolation path (constraintName c) v)

/-- Modelled from the spec: scalar view of a raw value for `enum`/`literal`
matching (§4.1 step 4: "accept only if the coerced raw value structurally
equals one of the declared accepted values"). -/
def liftScalar : Raw → Option Value
  | .null => some .null
  | .str s => some (.str s)
  | .int n => some (.int n)
  | .float q => some (.float q)
  | .bool b => some (.bool b)
  | _ => none


mutual

/-- Structural equality on `Value` (the spec's "deduplicate by structural
equality", "structurally equals one of the declared accepted values"). -/
def beqValue : Value → Value → Bool
  | .null, .null => true
  | .str a, .str b => a == b
  | .int a, .int b => a == b
  | .float a, .float b => a == b
  | .bool a, .bool b => a == b
  | .date a, .date b => a == b
  | .url a, .url b => a == b
  | .arr xs, .arr ys => beqValueList xs ys
  | .obj fs, .obj gs => beqValueObj fs gs
  | .mapV ps, .mapV qs => beqValuePairs ps qs
  | _, _ => false

def beqValueList : List Value → List Value → Bool
  | [], [] => true
  | x :: xs, y :: ys => beqValue x y && beqValueList xs ys
  | _, _ => false

def beqValueObj : List (String × Value) → List (String × Value) → Bool
  | [], [] => true
  | (n, x) :: xs, (m, y) :: ys => n == m && beqValue x y && beqValueObj xs ys
  | _, _ => false

def beqValuePairs : List (Value × Value) → List (Value × Value) → Bool
  | [], [] => true
  | (k, x) :: xs, (l, y) :: ys => beqValue k l && beqValue x y && beqValuePairs xs ys
  | _, _ => false

end

instance instBEqValue : BEq Value := ⟨beqValue⟩

/-- Order-preserving structural deduplication, used by the `set` kind
(§4.1 step 4: "deduplicate by structural equality after coercion, silently
dropping duplicates"). -/
def dedupVals (seen : List Value) : List Value → List Value
  | [] => []
  | v :: vs => if seen.contains v then dedupVals seen vs else v :: dedupVals (v :: seen) vs


/-- Modelled from the spec: presence resolution and recursion for one
declared object field (§4.1 steps 1 and 4).  An absent field takes its
declared default when one exists (defaults are trusted, not re-validated),
an absent or explicitly-null non-required field becomes null, and an absent
required field without a default is a `MissingRequiredField`. -/
def validateField (rec : SchemaNode → Raw → List PathItem → Outcome)
    (entries : List (String × Raw)) (path : List PathItem) :
    String × Bool × Option Value × SchemaNode → Outcome
  | (name, required, dflt, sch) =>
    match entries.lookup name with
    | none =>
      match dflt with
      | some d => .ok d
      | none =>
        if required then .errs [.missingRequiredField (path ++ [.field name])]
        else .ok .null
    | some .null => if required then rec sch .null (path ++ [.field name]) else .ok .null
    | some r => rec sch r (path ++ [.field name])

/-- Modelled from the spec: validate every declared field of an object in
declared order, collecting all errors (fail-slow, §4.1 step 5). -/
def validateFields (rec : SchemaNode → Raw → List PathItem → Outcome)
    (entries : List (String × Raw)) (path : List PathItem) :
    List (String × Bool × Option Value × SchemaNode) →
    List FieldError × List (String × Value)
  | [] => ([], [])
  | f :: rest =>
    let r := validateField rec entries path f
    let pr := validateFields rec entries path rest
    match r with
    | .ok v => (pr.1, (f.1, v) :: pr.2)
    | .errs es => (es ++ pr.1, pr.2)

/-- Modelled from the spec: validate the elements of a sequence at
`path + [index]` each, collecting all errors in input order. -/
def validateElems (rec : SchemaNode → Raw → List PathItem → Outcome)
    (elem : SchemaNode) (path : List PathItem) :
    Nat → List Raw → List FieldError × List Value
  | _, [] => ([], [])
  | i, x :: xs =>
    let r := rec elem x (path ++ [.idx i])
    let pr := validateElems rec elem path (i + 1) xs
    match r with
    | .ok v => (pr.1, v :: pr.2)
    | .errs es => (es ++ pr.1, pr.2)

/-- Modelled from the spec: validate the entries of a `map` node, coercing
each key through the key schema and each value through the value schema
(§4.1 step 4), collecting all errors in input order. -/
def validatePairs (rec : SchemaNode → Raw → List PathItem → Outcome)
    (kp : Prim) (vsch : SchemaNode) (path : List PathItem) :
    List (String × Raw) → List FieldError × List (Value × Value)
  | [] => ([], [])
  | (k, rv) :: rest =>
    let kr : Outcome :=
      match coerceKey kp k with
      | some kv => .ok kv
      | none => .errs [.typeCoercionError (path ++ [.key k]) (primName kp) "string"]
    let vr := rec vsch rv (path ++ [.key k])
    let pr := validatePairs rec kp vsch path rest
    match kr, vr with
    | .ok kv, .ok vv => (pr.1, (kv, vv) :: pr.2)
    | .ok _, .errs es => (es ++ pr.1, pr.2)
    | .errs es, .ok _ => (es ++ pr.1, pr.2)
    | .errs es, .errs es2 => (es ++ es2 ++ pr.1, pr.2)

/-- Modelled from the spec: try union candidates in declared order and
accept the first full success; when none succeeds, emit
`NoUnionVariantMatched` carrying the sub-errors of every attempted
candidate (§4.1 step 4). -/
def validateCands (rec : SchemaNode → Raw → List PathItem → Outcome)
    (raw : Raw) (path : List PathItem) :
    List SchemaNode → List (List FieldError) → Outcome
  | [], acc => .errs [.noUnionVariantMatched path acc.reverse]
  | c :: cs, acc =>
    match rec c raw path with
    | .ok v => .ok v
    | .errs es => validateCands rec raw path cs (es :: acc)

/-- The declared field names of an object node. -/
def fieldNames (fields : List (String × Bool × Option Value × SchemaNode)) : List String :=
  fields.map (fun f => f.1)

/-- Modelled from the spec: under `extra_fields_policy = forbid`, every raw
key not present in the declared field set emits `UnexpectedField`
(§4.1 step 4). -/
def extraFieldErrors (policy : ExtraPolicy)
    (fields : List (String × Bool × Option Value × SchemaNode))
    (entries : List (String × Raw)) (path : List PathItem) : List FieldError :=
  match policy with
  | .ignore => []
  | .forbid =>
    (entries.filter (fun e => !(fieldNames fields).contains e.1)).map
      (fun e => .unexpectedField (path ++ [.field e.1]))

/-- Modelled from the spec: one level of the recursive descent of §4.1,
parameterised by the recursion for strictly deeper nodes. -/
def validateStep (rec : SchemaNode → Raw → List PathItem → Outcome) :
    SchemaNode → Raw → List PathItem → Outcome
  | .scalar p cs, raw, path =>
    match coerceScalar p raw with
    | .error obs => .errs [.typeCoercionError path (primName p) obs]
    | .ok v =>
      match constraintErrors cs v path with
      | [] => .ok v
      | es => .errs es
  | .opt inner, raw, path =>
    match raw with
    | .null => .ok .null
    | _ => rec inner raw path
  | .listS elem cs, raw, path =>
    match raw with
    | .arr xs =>
      match validateElems rec elem path 0 xs with
      | ([], vs) =>
        match constraintErrors cs (.arr vs) path with
        | [] => .ok (.arr vs)
        | es => .errs es
      | (es, _) => .errs es
    | _ => .errs [.typeCoercionError path "list" (rawKindName raw)]
  | .setS elem, raw, path =>
    match raw with
    | .arr xs =>
      match validateElems rec elem path 0 xs with
      | ([], vs) => .ok (.arr (dedupVals [] vs))
      | (es, _) => .errs es
    | _ => .errs [.typeCoercionError path "set" (rawKindName raw)]
  | .mapS kp vsch, raw, path =>
    match raw with
    | .obj entries =>
      match validatePairs rec kp vsch path entries with
      | ([], ps) => .ok (.mapV ps)
      | (es, _) => .errs es
    | _ => .errs [.typeCoercionError path "map" (rawKindName raw)]
  | .object policy fields, raw, path =>
    match raw with
    | .obj entries =>
      let fr := validateFields rec entries path fields
      match fr.1 ++ extraFieldErrors policy fields entries path with
      | [] => .ok (.obj fr.2)
      | es => .errs es
    | _ => .errs [.typeCoercionError path "object" (rawKindName raw)]
  | .union cands, raw, path => validateCands rec raw path cands []
  | .enum accepted, raw, path =>
    match liftScalar raw with
    | some v =>
      if accepted.contains v then .ok v
      else .errs [.typeCoercionError path "enum" (rawKindName raw)]
    | none => .errs [.typeCoercionError path "enum" (rawKindName raw)]

/-- Modelled from the spec: the public `validate` contract of §4.1, with
the recursion-depth guard of step 0 (`TooDeeplyNested` instead of
overflowing). -/
def validate : Nat → SchemaNode → Raw → List PathItem → Outcome
  | 0, _, _, path => .errs [.tooDeeplyNested path]
  | fuel + 1, s, raw, path => validateStep (validate fuel) s raw path

/-- Modelled from the spec: the engine's fixed maximum recursion depth. -/
def maxDepth : Nat := 64

/-- Modelled from the spec: `validate(schema, raw)` entry point, starting
from the document root with an empty location path. -/
def validateTop (s : SchemaNode) (raw : Raw) : Outcome :=
  validate maxDepth s raw []

/-- Decimal digit characters of a natural number, most significant first. -/
def natDigits (n : Nat) : List Char :=
  if h : n < 10 then [Char.ofNat (48 + n)]
  else natDigits (n / 10) ++ [Char.ofNat (48 + n % 10)]
decreasing_by exact Nat.div_lt_self (by omega) (by omega)

/-- Decimal rendering of an integer, used when map keys return to wire
form (JSON object keys are strings, §6). -/
def intToString (n : Int) : String :=
  if n < 0 then ⟨'-' :: natDigits (-n).toNat⟩ else ⟨natDigits n.toNat⟩

/-- Wire form of a map key (§6: JSON object keys are strings). -/
def encodeKey : Value → String
  | .str s => s
  | .int n => intToString n
  | _ => ""

mutual

/-- Modelled from the spec: the external encoder of §6 — converts an
output `Value` back into wire JSON (dates render as ISO-8601 strings, sets
render as JSON arrays in the order `validate` produced them). -/
def encodeValue : Value → Raw
  | .null => .null
  | .str s => .str s
  | .int n => .int n
  | .float q => .float q
  | .bool b => .bool b
  | .date s => .str s
  | .url s => .str s
  | .arr xs => .arr (encodeValueList xs)
  | .obj fs => .obj (encodeValueObj fs)
  | .mapV ps => .obj (encodeValuePairs ps)

def encodeValueList : List Value → List Raw
  | [] => []
  | v :: vs => encodeValue v :: encodeValueList vs

def encodeValueObj : List (String × Value) → List (String × Raw)
  | [] => []
  | (n, v) :: fs => (n, encodeValue v) :: encodeValueObj fs

def encodeValuePairs : List (Value × Value) → List (String × Raw)
  | [] => []
  | (k, v) :: ps => (encodeKey k, encodeValue v) :: encodeValuePairs ps

end

mutual

/-- A schema with no `union` node anywhere. -/
def unionFree : SchemaNode → Bool
  | .scalar _ _ => true
  | .opt inner => unionFree inner
  | .listS elem _ => unionFree elem
  | .setS elem => unionFree elem
  | .mapS _ vsch => unionFree vsch
  | .object _ fields => unionFreeFields fields
  | .union _ => false
  | .enum _ => true

def unionFreeFields : List (String × Bool × Option Value × SchemaNode) → Bool
  | [] => true
  | (_, _, _, sch) :: rest => unionFree sch && unionFreeFields rest

end

mutual

/-- A schema in which no object field declares a default value. -/
def defaultFree : SchemaNode → Bool
  | .scalar _ _ => true
  | .opt inner => defaultFree inner
  | .listS elem _ => defaultFree elem
  | .setS elem => defaultFree elem
  | .mapS _ vsch => defaultFree vsch
  | .object _ fields => defaultFreeFields fields
  | .union cands => defaultFreeCands cands
  | .enum _ => true

def defaultFreeFields : List (String × Bool × Option Value × SchemaNode) → Bool
  | [] => true
  | (_, _, dflt, sch) :: rest => dflt.isNone && defaultFree sch && defaultFreeFields rest

def defaultFreeCands : List SchemaNode → Bool
  | [] => true
  | c :: cs => defaultFree c && defaultFreeCands cs

end

/-- No string occurs twice in the list (declared field names must be
pairwise distinct). -/
def nodupNames : List String → Bool
  | [] => true
  | n :: rest => !rest.contains n && nodupNames rest

mutual

/-- Well-formedness of §4.1: object nodes have pairwise-distinct declared
field names (the constructor-time invariant "rejects duplicate field
names"), recursively. -/
def wellFormed : SchemaNode → Bool
  | .scalar _ _ => true
  | .opt inner => wellFormed inner
  | .listS elem _ => wellFormed elem
  | .setS elem => wellFormed elem
  | .mapS _ vsch => wellFormed vsch
  | .object _ fields => nodupNames (fieldNames fields) && wellFormedFields fields
  | .union cands => wellFormedCands cands
  | .enum _ => true

def wellFormedFields : List (String × Bool × Option Value × SchemaNode) → Bool
  | [] => true
  | (_, _, _, sch) :: rest => wellFormed sch && wellFormedFields rest

def wellFormedCands : List SchemaNode → Bool
  | [] => true
  | c :: cs => wellFormed c && wellFormedCands cs

end

end Engine

namespace RequestBody

/-- The pydantic model `Item` of `src/iv_request_body.py`: `name: str`,
`description: str | None = None`, `price: float`, `tax: float | None =
None`.  Floats are modelled as `Rat`. -/
structure Item where
  name : String
  description : Option String
  price : Rat
  tax : Option Rat

/-- A value of the dict a handler returns: strings, numbers, or `None`. -/
inductive DictVal where
  | str (s : String)
  | num (q : Rat)
  | noneV
  deriving DecidableEq

/-- `item.model_dump()`: the model as a dict, fields in declaration
order. -/
def modelDump (item : Item) : List (String × DictVal) :=
  [ ("name", .str item.name),
    ("description", match item.description with | some d => .str d | none => .noneV),
    ("price", .num item.price),
    ("tax", match item.tax with | some t => .num t | none => .noneV) ]

/-- `create_item` of `src/iv_request_body.py`: dump the model and, when
`item.tax` is truthy (Python truthiness: neither `None` nor `0.0`), add
`price_with_tax = item.price + item.tax`. -/
def create_item (item : Item) : List (String × DictVal) :=
  let item_dict := modelDump item
  match item.tax with
  | some t =>
    if t ≠ 0 then item_dict ++ [("price_with_tax", .num (item.price + t))]
    else item_dict
  | none => item_dict

end RequestBody

namespace ExtraModels

/-- `UserIn` of `src/xii_extra_models.py` (fields of `UserBase` plus the
plaintext `password`). -/
structure UserIn where
  username : String
  email : String
  full_name : Option String
  password : String

/-- `UserInDB` of `src/xii_extra_models.py` (fields of `UserBase` plus
`hashed_password`). -/
structure UserInDB where
  username : String
  email : String
  full_name : Option String
  hashed_password : String

/-- `fake_password_hasher` of `src/xii_extra_models.py`. -/
def fake_password_hasher (raw_password : String) : String :=
  "supersecret" ++ raw_password

/-- `fake_save_user` of `src/xii_extra_models.py`: hash the password, then
build a `UserInDB` from the dumped `UserIn` fields plus
`hashed_password`. -/
def fake_save_user (user_in : UserIn) : UserInDB :=
  let hashed_password := fake_password_hasher user_in.password
  { username := user_in.username,
    email := user_in.email,
    full_name := user_in.full_name,
    hashed_password := hashed_password }

end ExtraModels

namespace HandlingErrors

/-- A Python dict key as used in `src/xiv_handling_errors.py`: the `items`
dict has the string key `"foo"` while the handler's `item_id` is an `int`;
`in` compares them with Python equality, under which an int never equals a
str. -/
inductive PyKey where
  | str (s : String)
  | int (n : Int)
  deriving DecidableEq

/-- `items = {"foo": "The Foo Wrestlers"}` of `src/xiv_handling_errors.py`. -/
def items : List (PyKey × String) := [(.str "foo", "The Foo Wrestlers")]

/-- What a call of the handler does: raise `HTTPException` or return a
body. -/
inductive HandlerResult where
  | raise (status : Nat) (detail : String) (headers : List (String × String))
  | ok (body : List (String × String))
  deriving DecidableEq

/-- `read_item` of `src/xiv_handling_errors.py`: `item_id` is an `int`
(declared `Path(gt=2)`); if `item_id not in items` raise a 404
`HTTPException` with detail `"Item not found"` and header `X-Error`,
otherwise return `{"item": items[item_id]}`. -/
def read_item (item_id : Int) : HandlerResult :=
  match items.lookup (.int item_id) with
  | none => .raise 404 "Item not found" [("X-Error", "There goes my error")]
  | some v => .ok [("item", v)]

end HandlingErrors

namespace Engine

mutual

theorem beqValue_iff : ∀ (a b : Value), beqValue a b = true ↔ a = b
  | a, b => by
    cases a <;> cases b <;> simp [beqValue]
    case arr.arr xs ys => exact beqValueList_iff xs ys
    case obj.obj fs gs => exact beqValueObj_iff fs gs
    case mapV.mapV ps qs => exact beqValuePairs_iff ps qs

theorem beqValueList_iff : ∀ (xs ys : List Value), beqValueList xs ys = true ↔ xs = ys
  | xs, ys => by
    cases xs <;> cases ys <;> simp [beqValueList]
    case cons.cons x xs y ys =>
      rw [beqValue_iff, beqValueList_iff]

theorem beqValueObj_iff : ∀ (xs ys : List (String × Value)), beqValueObj xs ys = true ↔ xs = ys
  | xs, ys => by
    cases xs <;> cases ys <;> simp [beqValueObj]
    case cons.cons x xs y ys =>
      obtain ⟨n, v⟩ := x
      obtain ⟨m, w⟩ := y
      simp [beqValueObj]
      rw [beqValue_iff, beqValueObj_iff]

theorem beqValuePairs_iff : ∀ (xs ys : List (Value × Value)), beqValuePairs xs ys = true ↔ xs = ys
  | xs, ys => by
    cases xs <;> cases ys <;> simp [beqValuePairs]
    case cons.cons x xs y ys =>
      obtain ⟨k, v⟩ := x
      obtain ⟨l, w⟩ := y
      simp [beqValuePairs]
      rw [beqValue_iff, beqValue_iff, beqValuePairs_iff]

end

theorem value_beq_def (v w : Value) : (v == w) = beqValue v w := rfl

theorem containsValue_iff (l : List Value) (v : Value) : l.contains v = true ↔ v ∈ l := by
  induction l with
  | nil => simp [List.contains]
  | cons w ws ih =>
    simp [List.contains, List.elem_cons, value_beq_def] at ih ⊢
    rw [beqValue_iff]
    exact or_congr Iff.rfl ih


theorem mem_dedupVals (w : Value) : ∀ (l seen : List Value),
    w ∈ dedupVals seen l ↔ (w ∈ l ∧ w ∉ seen) := by
  intro l
  induction l with
  | nil => intro seen; simp [dedupVals]
  | cons v vs ih =>
    intro seen
    by_cases hv : seen.contains v = true
    · have hvs : v ∈ seen := (containsValue_iff seen v).mp hv
      rw [dedupVals, if_pos hv, ih]
      constructor
      · rintro ⟨h1, h2⟩
        exact ⟨List.mem_cons_of_mem v h1, h2⟩
      · rintro ⟨h1, h2⟩
        rcases List.mem_cons.mp h1 with rfl | hm
        · exact absurd hvs h2
        · exact ⟨hm, h2⟩
    · have hvs : v ∉ seen := fun hm => hv ((containsValue_iff seen v).mpr hm)
      rw [dedupVals, if_neg hv]
      constructor
      · intro hmem
        rcases List.mem_cons.mp hmem with rfl | hm
        · exact ⟨List.mem_cons_self w vs, hvs⟩
        · have h12 := (ih (v :: seen)).mp hm
          have h3 : w ∉ seen := fun hs => h12.2 (List.mem_cons_of_mem v hs)
          exact ⟨List.mem_cons_of_mem v h12.1, h3⟩
      · rintro ⟨h1, h2⟩
        rcases List.mem_cons.mp h1 with rfl | hm
        · exact List.mem_cons_self w _
        · by_cases hwv : w = v
          · subst hwv; exact List.mem_cons_self w _
          · refine List.mem_cons_of_mem v ((ih (v :: seen)).mpr ⟨hm, ?_⟩)
            intro hc
            rcases List.mem_cons.mp hc with h | h
            · exact hwv h
            · exact h2 h

theorem dedupVals_nodup : ∀ (l seen : List Value), (dedupVals seen l).Nodup := by
  intro l
  induction l with
  | nil => intro seen; simp [dedupVals]
  | cons v vs ih =>
    intro seen
    by_cases hv : seen.contains v = true
    · rw [dedupVals, if_pos hv]; exact ih seen
    · rw [dedupVals, if_neg hv]
      refine List.nodup_cons.mpr ⟨fun hm => ?_, ih (v :: seen)⟩
      exact ((mem_dedupVals v vs (v :: seen)).mp hm).2 (List.mem_cons_self v seen)

theorem dedupVals_eq_self : ∀ (l seen : List Value), l.Nodup → (∀ w ∈ l, w ∉ seen) →
    dedupVals seen l = l := by
  intro l
  induction l with
  | nil => intro seen _ _; simp [dedupVals]
  | cons v vs ih =>
    intro seen hnd hdisj
    have hv : ¬ seen.contains v = true := fun h =>
      absurd ((containsValue_iff seen v).mp h) (hdisj v (List.mem_cons_self v vs))
    rw [dedupVals, if_neg hv]
    congr 1
    refine ih (v :: seen) (List.nodup_cons.mp hnd).2 ?_
    intro w hw hc
    rcases List.mem_cons.mp hc with rfl | hs
    · exact (List.nodup_cons.mp hnd).1 hw
    · exact hdisj w (List.mem_cons_of_mem v hw) hs

theorem dedupVals_idem (l : List Value) : dedupVals [] (dedupVals [] l) = dedupVals [] l :=
  dedupVals_eq_self _ _ (dedupVals_nodup l []) (by simp)

end Engine

namespace Engine

theorem digitsToNat_append (xs : List Char) : ∀ (ys : List Char) (acc : Nat),
    digitsToNat acc (xs ++ ys) =
      (digitsToNat acc xs).bind (fun m => digitsToNat m ys) := by
  induction xs with
  | nil => intro ys acc; simp [digitsToNat]
  | cons c cs ih =>
    intro ys acc
    by_cases h : c.isDigit <;> simp [digitsToNat, h, ih]

theorem digitChar_isDigit (d : Nat) (h : d < 10) :
    (Char.ofNat (48 + d)).isDigit = true ∧ (Char.ofNat (48 + d)).toNat = 48 + d := by
  interval_cases d <;> exact ⟨by decide, by decide⟩

theorem natDigits_spec (n : Nat) : ∀ (acc : Nat),
    digitsToNat acc (natDigits n) = some (acc * 10 ^ (natDigits n).length + n) := by
  induction n using Nat.strong_induction_on with
  | _ n ih =>
    intro acc
    by_cases h : n < 10
    · rw [natDigits, dif_pos h]
      have hd := digitChar_isDigit n h
      simp [digitsToNat, hd.1, hd.2]
    · rw [natDigits, dif_neg h]
      have hlt : n / 10 < n := Nat.div_lt_self (by omega) (by omega)
      have hm : n % 10 < 10 := Nat.mod_lt _ (by omega)
      have hd := digitChar_isDigit (n % 10) hm
      rw [digitsToNat_append]
      rw [ih (n / 10) hlt acc]
      simp [digitsToNat, hd.1, hd.2]
      have h10 : n / 10 * 10 + n % 10 = n := by omega
      ring_nf
      omega

theorem natDigits_cons (n : Nat) : ∃ c rest, natDigits n = c :: rest ∧ c.isDigit = true := by
  induction n using Nat.strong_induction_on with
  | _ n ih =>
    by_cases h : n < 10
    · rw [natDigits, dif_pos h]
      exact ⟨_, [], rfl, (digitChar_isDigit n h).1⟩
    · rw [natDigits, dif_neg h]
      have hlt : n / 10 < n := Nat.div_lt_self (by omega) (by omega)
      obtain ⟨c, rest, heq, hdig⟩ := ih (n / 10) hlt
      exact ⟨c, rest ++ [Char.ofNat (48 + n % 10)], by rw [heq]; simp, hdig⟩

theorem isDigit_ne_dash {c : Char} (h : c.isDigit = true) : c ≠ '-' := by
  intro he
  rw [he] at h
  exact absurd h (by decide)

theorem parseIntString_natDigits (m : Nat) :
    parseIntString ⟨natDigits m⟩ = some (Int.ofNat m) := by
  obtain ⟨c, rest, heq, hdig⟩ := natDigits_cons m
  have hspec : digitsToNat 0 (c :: rest) = some m := by
    have hs := natDigits_spec m 0
    rw [heq] at hs
    simpa using hs
  rw [parseIntString]
  have htl : (String.mk (natDigits m)).toList = natDigits m := rfl
  rw [htl, heq]
  simp [isDigit_ne_dash hdig, hspec]

theorem parseIntString_intToString (n : Int) : parseIntString (intToString n) = some n := by
  by_cases h : n < 0
  · rw [intToString, if_pos h]
    have hspec : digitsToNat 0 (natDigits (-n).toNat) = some ((-n).toNat) := by
      have hs := natDigits_spec (-n).toNat 0
      simpa using hs
    rw [parseIntString]
    have htl : (String.mk ('-' :: natDigits (-n).toNat)).toList =
        '-' :: natDigits (-n).toNat := rfl
    rw [htl]
    obtain ⟨c, rest, heq, hdig⟩ := natDigits_cons (-n).toNat
    have hne : ¬ (natDigits (-n).toNat).isEmpty = true := by rw [heq]; simp
    simp [hne, hspec]
    omega
  · rw [intToString, if_neg h]
    rw [parseIntString_natDigits]
    simp
    omega

end Engine

namespace Engine

theorem constraintErrors_nil {cs : List Constraint} {v : Value}
    {path : List PathItem} (path' : List PathItem)
    (h : constraintErrors cs v path = []) : constraintErrors cs v path' = [] := by
  simp only [constraintErrors, List.map_eq_nil_iff] at h ⊢
  exact h

theorem coerceScalar_encode : ∀ (p : Prim) (raw : Raw) (v : Value),
    coerceScalar p raw = .ok v → coerceScalar p (encodeValue v) = .ok v := by
  intro p raw v h
  cases p <;> cases raw <;> simp [coerceScalar] at h
  case str.str s => subst h; simp [encodeValue, coerceScalar]
  case int.int n => subst h; simp [encodeValue, coerceScalar]
  case int.str s =>
    rcases hp : parseIntString s with _ | n <;> rw [hp] at h <;> simp at h
    subst h; simp [encodeValue, coerceScalar]
  case float.int n => subst h; simp [encodeValue, coerceScalar]
  case float.float q => subst h; simp [encodeValue, coerceScalar]
  case bool.str s =>
    by_cases ht : s = "true"
    · subst ht; simp at h; subst h; simp [encodeValue, coerceScalar]
    · by_cases hf : s = "false"
      · subst hf; simp at h; subst h; simp [encodeValue, coerceScalar]
      · simp [ht, hf] at h
  case bool.bool b => subst h; simp [encodeValue, coerceScalar]
  case date.str s =>
    by_cases hiso : isIsoDate s = true
    · simp [hiso] at h; subst h; simp [encodeValue, coerceScalar, hiso]
    · simp [hiso] at h
  case url.str s =>
    by_cases hurl : isUrlString s = true
    · simp [hurl] at h; subst h; simp [encodeValue, coerceScalar, hurl]
    · simp [hurl] at h

theorem coerceKey_encodeKey : ∀ (p : Prim) (k : String) (kv : Value),
    coerceKey p k = some kv → coerceKey p (encodeKey kv) = some kv := by
  intro p k kv h
  cases p <;> simp [coerceKey] at h
  case str => subst h; simp [coerceKey, encodeKey]
  case int =>
    obtain ⟨n, hp, hv⟩ := h
    subst hv
    simp [coerceKey, encodeKey, parseIntString_intToString]

theorem encodeValue_eq_null : ∀ (v : Value), encodeValue v = .null → v = .null := by
  intro v h
  cases v <;> simp [encodeValue] at h ⊢

theorem liftScalar_encode : ∀ (raw : Raw) (v : Value),
    liftScalar raw = some v → liftScalar (encodeValue v) = some v := by
  intro raw v h
  cases raw <;> simp [liftScalar] at h <;> subst h <;> simp [liftScalar, encodeValue]

end Engine

namespace Engine

theorem validateElems_extract (rec : SchemaNode → Raw → List PathItem → Outcome)
    (elem : SchemaNode) (path : List PathItem) : ∀ (xs : List Raw) (i : Nat) (vs : List Value),
    validateElems rec elem path i xs = ([], vs) →
    ∀ w ∈ vs, ∃ r p, rec elem r p = .ok w := by
  intro xs
  induction xs with
  | nil =>
    intro i vs h w hw
    simp [validateElems] at h
    subst h
    simp at hw
  | cons x xs ih =>
    intro i vs h w hw
    rcases hpr : validateElems rec elem path (i + 1) xs with ⟨es', vs'⟩
    rcases hr : rec elem x (path ++ [PathItem.idx i]) with v0 | es0 <;>
      simp only [validateElems, hr, hpr, Prod.mk.injEq] at h <;>
      obtain ⟨h1, h2⟩ := h
    · rw [← h2] at hw
      rcases List.mem_cons.mp hw with rfl | hm
      · exact ⟨x, path ++ [PathItem.idx i], hr⟩
      · exact ih (i + 1) vs' (by rw [hpr, h1]) w hm
    · rw [← h2] at hw
      exact ih (i + 1) vs' (by rw [hpr, (List.append_eq_nil.mp h1).2]) w hw

theorem validateElems_encode (rec : SchemaNode → Raw → List PathItem → Outcome)
    (elem : SchemaNode) (path' : List PathItem) : ∀ (ws : List Value),
    (∀ w ∈ ws, ∀ p', rec elem (encodeValue w) p' = .ok w) →
    ∀ i, validateElems rec elem path' i (encodeValueList ws) = ([], ws) := by
  intro ws
  induction ws with
  | nil => intro _ i; simp [encodeValueList, validateElems]
  | cons w ws ih =>
    intro hws i
    rw [encodeValueList]
    simp only [validateElems,
      hws w (List.mem_cons_self w ws) (path' ++ [PathItem.idx i]),
      ih (fun u hu p' => hws u (List.mem_cons_of_mem w hu) p') (i + 1)]

theorem validatePairs_extract (rec : SchemaNode → Raw → List PathItem → Outcome)
    (kp : Prim) (vsch : SchemaNode) (path : List PathItem) :
    ∀ (entries : List (String × Raw)) (ps : List (Value × Value)),
    validatePairs rec kp vsch path entries = ([], ps) →
    ∀ pr ∈ ps, (∃ k, coerceKey kp k = some pr.1) ∧ (∃ rv p, rec vsch rv p = .ok pr.2) := by
  intro entries
  induction entries with
  | nil =>
    intro ps h pr hpr
    simp [validatePairs] at h
    subst h
    simp at hpr
  | cons e rest ih =>
    intro ps h pr hpr
    obtain ⟨k, rv⟩ := e
    rcases hrest : validatePairs rec kp vsch path rest with ⟨es', ps'⟩
    rcases hk : coerceKey kp k with _ | kv <;>
      rcases hv : rec vsch rv (path ++ [PathItem.key k]) with vv | es0 <;>
      simp only [validatePairs, hk, hv, hrest, Prod.mk.injEq] at h <;>
      obtain ⟨h1, h2⟩ := h
    · simp at h1
    · simp at h1
    · rw [← h2] at hpr
      rcases List.mem_cons.mp hpr with rfl | hm
      · exact ⟨⟨k, hk⟩, ⟨rv, path ++ [PathItem.key k], hv⟩⟩
      · exact ih ps' (by rw [hrest, h1]) pr hm
    · rw [← h2] at hpr
      exact ih ps' (by rw [hrest, (List.append_eq_nil.mp h1).2]) pr hpr

theorem validatePairs_encode (rec : SchemaNode → Raw → List PathItem → Outcome)
    (kp : Prim) (vsch : SchemaNode) (path' : List PathItem) : ∀ (ps : List (Value × Value)),
    (∀ pr ∈ ps, coerceKey kp (encodeKey pr.1) = some pr.1) →
    (∀ pr ∈ ps, ∀ p', rec vsch (encodeValue pr.2) p' = .ok pr.2) →
    validatePairs rec kp vsch path' (encodeValuePairs ps) = ([], ps) := by
  intro ps
  induction ps with
  | nil => intro _ _; simp [encodeValuePairs, validatePairs]
  | cons pr ps ih =>
    intro hk hv
    obtain ⟨kv, vv⟩ := pr
    rw [encodeValuePairs]
    have hk0 : coerceKey kp (encodeKey kv) = some kv := hk (kv, vv) (List.mem_cons_self _ ps)
    have hv0 : rec vsch (encodeValue vv) (path' ++ [PathItem.key (encodeKey kv)]) = .ok vv :=
      hv (kv, vv) (List.mem_cons_self _ ps) _
    simp only [validatePairs, hk0, hv0,
      ih (fun u hu => hk u (List.mem_cons_of_mem (kv, vv) hu))
         (fun u hu p' => hv u (List.mem_cons_of_mem (kv, vv) hu) p')]

end Engine

namespace Engine

theorem errs_ne_of_cons {e : FieldError} {l es : List FieldError}
    (h : Outcome.errs (e :: l) = .errs es) : es ≠ [] := by
  injection h with h'
  rw [← h']
  simp

theorem validateCands_errs_ne_nil (fuel : Nat) (raw : Raw) (path : List PathItem) :
    ∀ (cands : List SchemaNode) (acc : List (List FieldError)) (es : List FieldError),
    validateCands (validate fuel) raw path cands acc = .errs es → es ≠ [] := by
  intro cands
  induction cands with
  | nil => intro acc es h; exact errs_ne_of_cons h
  | cons c cs ih =>
    intro acc es h
    rcases hc : validate fuel c raw path with v | es0
    · simp only [validateCands, hc] at h
      simp at h
    · simp only [validateCands, hc] at h
      exact ih (es0 :: acc) es h

theorem validate_errs_ne_nil : ∀ (fuel : Nat) (s : SchemaNode) (raw : Raw)
    (path : List PathItem) (es : List FieldError),
    validate fuel s raw path = .errs es → es ≠ [] := by
  intro fuel
  induction fuel with
  | zero =>
    intro s raw path es h
    simp only [validate] at h
    exact errs_ne_of_cons h
  | succ fuel ih =>
    intro s raw path es h
    cases s
    case scalar p cs =>
      simp only [validate, validateStep] at h
      rcases hc : coerceScalar p raw with obs | v <;> simp only [hc] at h
      · exact errs_ne_of_cons h
      · rcases hce : constraintErrors cs v path with _ | ⟨e, ces⟩ <;> simp only [hce] at h
        · simp at h
        · exact errs_ne_of_cons h
    case opt inner =>
      cases raw <;> simp only [validate, validateStep] at h
      case null => simp at h
      all_goals exact ih inner _ _ es h
    case listS elem cs =>
      cases raw <;> simp only [validate, validateStep] at h
      case arr xs =>
        rcases hve : validateElems (validate fuel) elem path 0 xs with ⟨es0, vs⟩
        simp only [hve] at h
        rcases es0 with _ | ⟨e, tl⟩
        · rcases hce : constraintErrors cs (.arr vs) path with _ | ⟨e, ces⟩ <;>
            simp only [hce] at h
          · simp at h
          · exact errs_ne_of_cons h
        · exact errs_ne_of_cons h
      all_goals exact errs_ne_of_cons h
    case setS elem =>
      cases raw <;> simp only [validate, validateStep] at h
      case arr xs =>
        rcases hve : validateElems (validate fuel) elem path 0 xs with ⟨es0, vs⟩
        simp only [hve] at h
        rcases es0 with _ | ⟨e, tl⟩
        · simp at h
        · exact errs_ne_of_cons h
      all_goals exact errs_ne_of_cons h
    case mapS kp vsch =>
      cases raw <;> simp only [validate, validateStep] at h
      case obj entries =>
        rcases hvp : validatePairs (validate fuel) kp vsch path entries with ⟨es0, ps⟩
        simp only [hvp] at h
        rcases es0 with _ | ⟨e, tl⟩
        · simp at h
        · exact errs_ne_of_cons h
      all_goals exact errs_ne_of_cons h
    case object policy fields =>
      cases raw <;> simp only [validate, validateStep] at h
      case obj entries =>
        rcases hall : (validateFields (validate fuel) entries path fields).1 ++
            extraFieldErrors policy fields entries path with _ | ⟨e, tl⟩ <;>
          simp only [hall] at h
        · simp at h
        · exact errs_ne_of_cons h
      all_goals exact errs_ne_of_cons h
    case union cands =>
      simp only [validate, validateStep] at h
      exact validateCands_errs_ne_nil fuel raw path cands [] es h
    case enum accepted =>
      simp only [validate, validateStep] at h
      rcases hl : liftScalar raw with _ | v <;> simp only [hl] at h
      · exact errs_ne_of_cons h
      · by_cases hc : accepted.contains v = true
        · simp [hc] at h
        · simp only [hc, Bool.false_eq_true, if_false] at h
          exact errs_ne_of_cons h

end Engine

namespace Engine

theorem stringContains_iff (l : List String) (a : String) : l.contains a = true ↔ a ∈ l := by
  simp [List.contains, List.elem_iff]

theorem validateField_errs_ne_nil (rec : SchemaNode → Raw → List PathItem → Outcome)
    (entries : List (String × Raw)) (path : List PathItem)
    (hrec : ∀ s r p es, rec s r p = .errs es → es ≠ []) :
    ∀ f es, validateField rec entries path f = .errs es → es ≠ [] := by
  rintro ⟨n, req, dflt, sch⟩ es h
  rcases hl : entries.lookup n with _ | r
  · simp only [validateField, hl] at h
    rcases dflt with _ | d
    · by_cases hreq : req = true
      · simp only [hreq, if_true] at h
        exact errs_ne_of_cons h
      · simp [hreq] at h
    · simp at h
  · cases r <;> simp only [validateField, hl] at h
    case null =>
      by_cases hreq : req = true
      · simp only [hreq, if_true] at h
        exact hrec sch .null (path ++ [PathItem.field n]) es h
      · simp [hreq] at h
    all_goals exact hrec sch _ (path ++ [PathItem.field n]) es h

theorem validateFields_extract (rec : SchemaNode → Raw → List PathItem → Outcome)
    (entries : List (String × Raw)) (path : List PathItem)
    (hne : ∀ f es, validateField rec entries path f = .errs es → es ≠ []) :
    ∀ (fields : List (String × Bool × Option Value × SchemaNode)) (pvs : List (String × Value)),
    validateFields rec entries path fields = ([], pvs) →
    List.Forall₂ (fun f pv => f.1 = pv.1 ∧ validateField rec entries path f = .ok pv.2)
      fields pvs := by
  intro fields
  induction fields with
  | nil =>
    intro pvs h
    simp [validateFields] at h
    subst h
    exact List.Forall₂.nil
  | cons f rest ih =>
    intro pvs h
    rcases hpr : validateFields rec entries path rest with ⟨es', pvs'⟩
    rcases hr : validateField rec entries path f with v0 | es0 <;>
      simp only [validateFields, hr, hpr, Prod.mk.injEq] at h <;> obtain ⟨h1, h2⟩ := h
    · rw [← h2]
      exact List.Forall₂.cons ⟨rfl, hr⟩ (ih pvs' (by rw [hpr, h1]))
    · exact absurd (List.append_eq_nil.mp h1).1 (hne f es0 hr)

theorem validateFields_encode (rec : SchemaNode → Raw → List PathItem → Outcome)
    (entries' : List (String × Raw)) (path' : List PathItem) :
    ∀ (fields : List (String × Bool × Option Value × SchemaNode)) (pvs : List (String × Value)),
    List.Forall₂ (fun f pv => f.1 = pv.1 ∧ validateField rec entries' path' f = .ok pv.2)
      fields pvs →
    validateFields rec entries' path' fields = ([], pvs) := by
  intro fields
  induction fields with
  | nil =>
    intro pvs h
    cases h
    simp [validateFields]
  | cons f rest ih =>
    intro pvs h
    rcases h with _ | ⟨⟨hname, hok⟩, htail⟩
    simp only [validateFields, hok, ih _ htail]
    simp [hname]

theorem forall2_map_fst {fields : List (String × Bool × Option Value × SchemaNode)}
    {pvs : List (String × Value)}
    {rec : SchemaNode → Raw → List PathItem → Outcome}
    {entries : List (String × Raw)} {path : List PathItem}
    (h : List.Forall₂ (fun f pv => f.1 = pv.1 ∧ validateField rec entries path f = .ok pv.2)
      fields pvs) : pvs.map Prod.fst = fieldNames fields := by
  induction h with
  | nil => rfl
  | cons hf _ ih =>
    simp only [fieldNames, List.map_cons] at ih ⊢
    rw [← hf.1, ih]

theorem encodeValueObj_map_fst : ∀ (pvs : List (String × Value)),
    (encodeValueObj pvs).map Prod.fst = pvs.map Prod.fst := by
  intro pvs
  induction pvs with
  | nil => simp [encodeValueObj]
  | cons pv rest ih =>
    obtain ⟨n, v⟩ := pv
    rw [encodeValueObj]
    simp [ih]

theorem lookup_encodeValueObj : ∀ (pvs : List (String × Value)),
    nodupNames (pvs.map Prod.fst) = true →
    ∀ (n : String) (v : Value), (n, v) ∈ pvs →
    (encodeValueObj pvs).lookup n = some (encodeValue v) := by
  intro pvs
  induction pvs with
  | nil => intro _ n v h; simp at h
  | cons pv rest ih =>
    obtain ⟨m, w⟩ := pv
    intro hnd n v hmem
    simp only [List.map_cons, nodupNames, Bool.and_eq_true] at hnd
    rw [encodeValueObj]
    rcases List.mem_cons.mp hmem with heq | hm
    · obtain ⟨rfl, rfl⟩ := Prod.mk.injEq .. ▸ heq
      simp [List.lookup]
    · by_cases hnm : n = m
      · subst hnm
        exfalso
        have hmemf : n ∈ rest.map Prod.fst := List.mem_map_of_mem Prod.fst hm
        have hc := (stringContains_iff (rest.map Prod.fst) n).mpr hmemf
        exact absurd hnd.1 (by rw [hc]; simp)
      · rw [List.lookup]
        have hbeq : (n == m) = false := by
          simp [hnm]
        rw [hbeq]
        exact ih hnd.2 n v hm

theorem extraFieldErrors_encode (policy : ExtraPolicy)
    (fields : List (String × Bool × Option Value × SchemaNode))
    (pvs : List (String × Value)) (path' : List PathItem)
    (hnames : pvs.map Prod.fst = fieldNames fields) :
    extraFieldErrors policy fields (encodeValueObj pvs) path' = [] := by
  cases policy
  · rfl
  · simp only [extraFieldErrors, List.map_eq_nil_iff, List.filter_eq_nil_iff]
    intro e he
    have h1 : e.1 ∈ (encodeValueObj pvs).map Prod.fst := List.mem_map_of_mem Prod.fst he
    rw [encodeValueObj_map_fst, hnames] at h1
    simp
    exact h1

theorem wellFormedFields_mem : ∀ (fields : List (String × Bool × Option Value × SchemaNode)),
    wellFormedFields fields = true → ∀ f ∈ fields, wellFormed f.2.2.2 = true := by
  intro fields
  induction fields with
  | nil => intro _ f hf; simp at hf
  | cons g rest ih =>
    obtain ⟨n, req, dflt, sch⟩ := g
    intro h f hf
    rw [wellFormedFields] at h
    rw [Bool.and_eq_true] at h
    rcases List.mem_cons.mp hf with rfl | hm
    · exact h.1
    · exact ih h.2 f hm

theorem unionFreeFields_mem : ∀ (fields : List (String × Bool × Option Value × SchemaNode)),
    unionFreeFields fields = true → ∀ f ∈ fields, unionFree f.2.2.2 = true := by
  intro fields
  induction fields with
  | nil => intro _ f hf; simp at hf
  | cons g rest ih =>
    obtain ⟨n, req, dflt, sch⟩ := g
    intro h f hf
    rw [unionFreeFields] at h
    rw [Bool.and_eq_true] at h
    rcases List.mem_cons.mp hf with rfl | hm
    · exact h.1
    · exact ih h.2 f hm

theorem defaultFreeFields_mem : ∀ (fields : List (String × Bool × Option Value × SchemaNode)),
    defaultFreeFields fields = true →
    ∀ f ∈ fields, f.2.2.1 = none ∧ defaultFree f.2.2.2 = true := by
  intro fields
  induction fields with
  | nil => intro _ f hf; simp at hf
  | cons g rest ih =>
    obtain ⟨n, req, dflt, sch⟩ := g
    intro h f hf
    rw [defaultFreeFields] at h
    rw [Bool.and_eq_true, Bool.and_eq_true] at h
    rcases List.mem_cons.mp hf with rfl | hm
    · exact ⟨Option.isNone_iff_eq_none.mp h.1.1, h.1.2⟩
    · exact ih h.2 f hm

end Engine

namespace Engine

theorem validateField_encode (rec : SchemaNode → Raw → List PathItem → Outcome)
    (entries entries' : List (String × Raw)) (path path' : List PathItem)
    (n : String) (req : Bool) (sch : SchemaNode) (v : Value)
    (hlk : entries'.lookup n = some (encodeValue v))
    (hrec : ∀ r p v0 p', rec sch r p = .ok v0 → rec sch (encodeValue v0) p' = .ok v0)
    (hfirst : validateField rec entries path (n, req, none, sch) = .ok v) :
    validateField rec entries' path' (n, req, none, sch) = .ok v := by
  have main : (v = .null ∧ req = false) ∨ (∀ p', rec sch (encodeValue v) p' = .ok v) := by
    rcases hl : entries.lookup n with _ | r
    · simp only [validateField, hl] at hfirst
      by_cases hreq : req = true
      · simp [hreq] at hfirst
      · simp [hreq] at hfirst
        exact Or.inl ⟨hfirst.symm, by simpa using hreq⟩
    · cases r <;> simp only [validateField, hl] at hfirst
      case null =>
        by_cases hreq : req = true
        · simp only [hreq, if_true] at hfirst
          exact Or.inr (fun p' => hrec .null _ v p' hfirst)
        · simp [hreq] at hfirst
          exact Or.inl ⟨hfirst.symm, by simpa using hreq⟩
      all_goals exact Or.inr (fun p' => hrec _ _ v p' hfirst)
  rcases main with ⟨hv, hreq⟩ | horig
  · subst hv
    have he : encodeValue Value.null = Raw.null := by simp [encodeValue]
    rw [he] at hlk
    simp only [validateField, hlk]
    simp [hreq]
  · rcases hv : encodeValue v with _ | s | n0 | q | b | xs | fs
    · have hvn := encodeValue_eq_null v hv
      subst hvn
      rw [hv] at hlk
      simp only [validateField, hlk]
      by_cases hreq : req = true
      · simp only [hreq, if_true]
        have h2 := horig (path' ++ [PathItem.field n])
        rw [hv] at h2
        exact h2
      · simp [hreq]
    all_goals
      rw [hv] at hlk
      simp only [validateField, hlk]
      rw [← hv]
      exact horig (path' ++ [PathItem.field n])

end Engine

namespace Engine

theorem forall2_imp_mem {α β : Type} {R S : α → β → Prop} :
    ∀ {l1 : List α} {l2 : List β}, List.Forall₂ R l1 l2 →
    (∀ a b, a ∈ l1 → b ∈ l2 → R a b → S a b) → List.Forall₂ S l1 l2 := by
  intro l1 l2 h
  induction h with
  | nil => intro _; exact .nil
  | cons hr htail ih =>
    intro himp
    exact .cons (himp _ _ (by simp) (by simp) hr)
      (ih (fun a b ha hb hr' => himp a b (by simp [ha]) (by simp [hb]) hr'))

theorem validate_encode_roundtrip : ∀ (fuel : Nat) (S : SchemaNode) (raw : Raw)
    (path path' : List PathItem) (v : Value),
    wellFormed S = true → unionFree S = true → defaultFree S = true →
    validate fuel S raw path = .ok v →
    validate fuel S (encodeValue v) path' = .ok v := by
  intro fuel
  induction fuel with
  | zero =>
    intro S raw path path' v _ _ _ h
    simp [validate] at h
  | succ fuel ih =>
    intro S raw path path' v hwf huf hdf h
    cases S
    case scalar p cs =>
      simp only [validate, validateStep] at h ⊢
      rcases hc : coerceScalar p raw with obs | w <;> simp only [hc] at h
      · simp at h
      · rcases hce : constraintErrors cs w path with _ | ⟨e, ces⟩ <;> simp only [hce] at h
        · simp at h
          subst h
          simp only [coerceScalar_encode p raw w hc, constraintErrors_nil path' hce]
        · simp at h
    case opt inner =>
      simp only [wellFormed] at hwf
      simp only [unionFree] at huf
      simp only [defaultFree] at hdf
      cases raw <;> simp only [validate, validateStep] at h
      case null =>
        simp at h
        subst h
        have he : encodeValue Value.null = Raw.null := by simp [encodeValue]
        rw [he]
        simp [validate, validateStep]
      all_goals (
        have h2 := ih inner _ path path' v hwf huf hdf h
        rcases hv : encodeValue v with _ | s | n0 | q | b | xs | fs <;>
          rw [hv] at h2 <;> simp only [validate, validateStep, hv]
        · have hvn := encodeValue_eq_null v hv
          subst hvn
          rfl
        all_goals exact h2)
    case listS elem cs =>
      simp only [wellFormed] at hwf
      simp only [unionFree] at huf
      simp only [defaultFree] at hdf
      cases raw <;> simp only [validate, validateStep] at h
      case arr xs =>
        rcases hve : validateElems (validate fuel) elem path 0 xs with ⟨es0, vs⟩
        simp only [hve] at h
        rcases es0 with _ | ⟨e, tl⟩
        · rcases hce : constraintErrors cs (.arr vs) path with _ | ⟨e, ces⟩ <;>
            simp only [hce] at h
          · simp at h
            subst h
            have horig := validateElems_extract (validate fuel) elem path xs 0 vs hve
            have henc : encodeValue (Value.arr vs) = Raw.arr (encodeValueList vs) := by
              simp [encodeValue]
            rw [henc]
            simp only [validate, validateStep]
            have helems : validateElems (validate fuel) elem path' 0 (encodeValueList vs) =
                ([], vs) := by
              refine validateElems_encode (validate fuel) elem path' vs ?_ 0
              intro w hw p''
              obtain ⟨r, p, hr⟩ := horig w hw
              exact ih elem r p p'' w hwf huf hdf hr
            simp only [helems, constraintErrors_nil path' hce]
          · simp at h
        · simp at h
      all_goals simp at h
    case setS elem =>
      simp only [wellFormed] at hwf
      simp only [unionFree] at huf
      simp only [defaultFree] at hdf
      cases raw <;> simp only [validate, validateStep] at h
      case arr xs =>
        rcases hve : validateElems (validate fuel) elem path 0 xs with ⟨es0, vs⟩
        simp only [hve] at h
        rcases es0 with _ | ⟨e, tl⟩
        · simp at h
          subst h
          have horig := validateElems_extract (validate fuel) elem path xs 0 vs hve
          have henc : encodeValue (Value.arr (dedupVals [] vs)) =
              Raw.arr (encodeValueList (dedupVals [] vs)) := by
            simp [encodeValue]
          rw [henc]
          simp only [validate, validateStep]
          have helems : validateElems (validate fuel) elem path' 0
              (encodeValueList (dedupVals [] vs)) = ([], dedupVals [] vs) := by
            refine validateElems_encode (validate fuel) elem path' (dedupVals [] vs) ?_ 0
            intro w hw p''
            have hwvs : w ∈ vs := ((mem_dedupVals w vs []).mp hw).1
            obtain ⟨r, p, hr⟩ := horig w hwvs
            exact ih elem r p p'' w hwf huf hdf hr
          simp only [helems, dedupVals_idem]
        · simp at h
      all_goals simp at h
    case mapS kp vsch =>
      simp only [wellFormed] at hwf
      simp only [unionFree] at huf
      simp only [defaultFree] at hdf
      cases raw <;> simp only [validate, validateStep] at h
      case obj entries =>
        rcases hvp : validatePairs (validate fuel) kp vsch path entries with ⟨es0, ps⟩
        simp only [hvp] at h
        rcases es0 with _ | ⟨e, tl⟩
        · simp at h
          subst h
          have horig := validatePairs_extract (validate fuel) kp vsch path entries ps hvp
          have henc : encodeValue (Value.mapV ps) = Raw.obj (encodeValuePairs ps) := by
            simp [encodeValue]
          rw [henc]
          simp only [validate, validateStep]
          have hpairs : validatePairs (validate fuel) kp vsch path' (encodeValuePairs ps) =
              ([], ps) := by
            refine validatePairs_encode (validate fuel) kp vsch path' ps ?_ ?_
            · intro pr hpr
              obtain ⟨⟨k, hk⟩, _⟩ := horig pr hpr
              exact coerceKey_encodeKey kp k pr.1 hk
            · intro pr hpr p''
              obtain ⟨_, ⟨rv, p, hr⟩⟩ := horig pr hpr
              exact ih vsch rv p p'' pr.2 hwf huf hdf hr
          simp only [hpairs]
        · simp at h
      all_goals simp at h
    case object policy fields =>
      simp only [wellFormed, Bool.and_eq_true] at hwf
      simp only [unionFree] at huf
      simp only [defaultFree] at hdf
      cases raw <;> simp only [validate, validateStep] at h
      case obj entries =>
        rcases hvf : validateFields (validate fuel) entries path fields with ⟨fes, pvs⟩
        simp only [hvf] at h
        rcases hall : fes ++ extraFieldErrors policy fields entries path with _ | ⟨e, tl⟩ <;>
          simp only [hall] at h
        · simp at h
          subst h
          have hfes : fes = [] := (List.append_eq_nil.mp hall).1
          subst hfes
          have hfa := validateFields_extract (validate fuel) entries path
            (validateField_errs_ne_nil (validate fuel) entries path
              (fun s r p es => validate_errs_ne_nil fuel s r p es)) fields pvs hvf
          have hnames : pvs.map Prod.fst = fieldNames fields := forall2_map_fst hfa
          have hnodup : nodupNames (pvs.map Prod.fst) = true := by
            rw [hnames]; exact hwf.1
          have henc : encodeValue (Value.obj pvs) = Raw.obj (encodeValueObj pvs) := by
            simp [encodeValue]
          rw [henc]
          simp only [validate, validateStep]
          have hfa' : List.Forall₂ (fun f pv => f.1 = pv.1 ∧
              validateField (validate fuel) (encodeValueObj pvs) path' f = .ok pv.2)
              fields pvs := by
            refine forall2_imp_mem hfa ?_
            rintro ⟨n, req, dflt, sch⟩ ⟨pn, pv2⟩ hf hpv ⟨hn, hok⟩
            simp only at hn
            have hdn : dflt = none := (defaultFreeFields_mem fields hdf _ hf).1
            subst hdn
            have hlk : (encodeValueObj pvs).lookup n = some (encodeValue pv2) := by
              rw [hn]
              exact lookup_encodeValueObj pvs hnodup pn pv2 hpv
            refine ⟨hn, ?_⟩
            refine validateField_encode (validate fuel) entries (encodeValueObj pvs)
              path path' n req sch pv2 hlk ?_ hok
            intro r p v0 p'' hr
            exact ih sch r p p'' v0 (wellFormedFields_mem fields hwf.2 _ hf)
              (unionFreeFields_mem fields huf _ hf)
              (defaultFreeFields_mem fields hdf _ hf).2 hr
          simp only [validateFields_encode (validate fuel) (encodeValueObj pvs) path'
            fields pvs hfa']
          simp only [extraFieldErrors_encode policy fields pvs path' hnames]
          simp
        · simp at h
      all_goals simp at h
    case union cands =>
      simp [unionFree] at huf
    case enum accepted =>
      simp only [validate, validateStep] at h ⊢
      rcases hl : liftScalar raw with _ | w <;> simp only [hl] at h
      · simp at h
      · by_cases hc : accepted.contains w = true
        · simp only [hc, if_true] at h
          simp at h
          subst h
          simp only [liftScalar_encode raw w hl, hc, if_true]
        · simp [hc] at h

end Engine

namespace Engine

theorem digitsToNat_isSome : ∀ (l : List Char) (acc : Nat),
    (digitsToNat acc l).isSome = l.all Char.isDigit := by
  intro l
  induction l with
  | nil => intro acc; simp [digitsToNat]
  | cons c cs ih =>
    intro acc
    by_cases h : c.isDigit = true <;> simp [digitsToNat, h, ih]

theorem coerceKey_int_format (s : String) : (coerceKey .int s).isSome = isIntKeyFormat s := by
  rw [coerceKey]
  rcases hs : s.toList with _ | ⟨c, rest⟩ <;>
    simp only [parseIntString, isIntKeyFormat, hs]
  · simp
  · by_cases hc : c = '-'
    · subst hc
      simp only [if_pos rfl]
      rcases rest with _ | ⟨d, ds⟩
      · simp
      · simp only [List.isEmpty_cons, Bool.not_false, Bool.true_and]
        rw [← digitsToNat_isSome (d :: ds) 0]
        rcases hd : digitsToNat 0 (d :: ds) with _ | m <;> simp [hd]
    · simp [hc, digitsToNat_isSome]

end Engine

namespace Engine

/-- C1: for the object schema `{name: string (required), price: float
(required, gt=0), tax: float (optional)}` and the raw input
`{"price": -5}`, `validate` returns an error outcome containing exactly two
errors — `MissingRequiredField` at `["name"]` and `ConstraintViolation(gt)`
at `["price"]` — both collected in the one call (fail-slow), and no partial
`Value` is returned. -/
theorem claim_c1_item_two_errors :
    validateTop
      (.object .ignore
        [("name", true, none, .scalar .str []),
         ("price", true, none, .scalar .float [.gt 0]),
         ("tax", false, none, .scalar .float [])])
      (.obj [("price", .int (-5))]) =
    .errs [.missingRequiredField [.field "name"],
           .constraintViolation [.field "price"] "gt" (.float (-5))] := rfl

/-- C2: for every union schema with candidate sequence `[A, B]` and every
raw input that both candidates would fully accept, `validate` returns the
value shaped as candidate `A` (first full match in declared order wins),
never as `B`. -/
theorem claim_c2_union_first_match (fuel : Nat) (A B : SchemaNode) (raw : Raw)
    (path : List PathItem) (va vb : Value)
    (ha : validate fuel A raw path = .ok va)
    (hb : validate fuel B raw path = .ok vb) :
    validate (fuel + 1) (.union [A, B]) raw path = .ok va := by
  simp only [validate, validateStep, validateCands, ha]

/-- Witness for C2 at `A = float`, `B = int`, raw input `2`: both accept,
and the union yields the float shape of `A`. -/
theorem claim_c2_union_first_match_witness :
    validate 2 (.scalar .float []) (.int 2) [] = .ok (.float 2) ∧
    validate 2 (.scalar .int []) (.int 2) [] = .ok (.int 2) ∧
    validate 3 (.union [.scalar .float [], .scalar .int []]) (.int 2) [] = .ok (.float 2) :=
  ⟨rfl, rfl, claim_c2_union_first_match 2 _ _ _ _ _ _ rfl rfl⟩

/-- C3: for every schema node with a declared default and every call where
the raw input for that node is absent, `validate`'s presence-resolution
step substitutes the default (or null for a bare optional with no default)
and performs no constraint checks on it — this holds for every field
schema `sch` (constraints included) and every recursion `rec`, so a
default that would violate the node's declared constraints is still
accepted as a success outcome, never an error. -/
theorem claim_c3_default_trusted (rec : SchemaNode → Raw → List PathItem → Outcome)
    (entries : List (String × Raw)) (path : List PathItem) (name : String)
    (required : Bool) (d : Value) (sch : SchemaNode)
    (h : entries.lookup name = none) :
    (validateField rec entries path (name, required, some d, sch) = .ok d ∧
     validateField rec entries path (name, false, none, sch) = .ok .null) ∧
    validateTop (.object .ignore [("q", true, some (.str "ab"), .scalar .str [.minLength 3])])
      (.obj []) = .ok (.obj [("q", .str "ab")]) := by
  refine ⟨⟨?_, ?_⟩, rfl⟩
  · simp [validateField, h]
  · simp [validateField, h]

/-- Witness for C3 at a default `"ab"` that violates the field's own
`min_length 3` constraint: the absent field still succeeds with the
default. -/
theorem claim_c3_default_trusted_witness :
    (List.lookup "q" ([] : List (String × Raw)) = none) ∧
    validateField (validate 8) [] []
      ("q", true, some (.str "ab"), .scalar .str [.minLength 3]) = .ok (.str "ab") :=
  ⟨rfl, (claim_c3_default_trusted (validate 8) [] [] "q" true (.str "ab")
    (.scalar .str [.minLength 3]) rfl).1.1⟩

/-- C4: for every object schema with `extra_fields_policy = forbid` and
every raw mapping containing a key not in the declared field set,
`validate` returns an error outcome containing an `UnexpectedField` error
for that key, regardless of whether the declared fields are themselves
valid. -/
theorem claim_c4_forbid_extra (fuel : Nat)
    (fields : List (String × Bool × Option Value × SchemaNode))
    (entries : List (String × Raw)) (k : String) (r : Raw) (path : List PathItem)
    (hmem : (k, r) ∈ entries) (hnot : (fieldNames fields).contains k = false) :
    ∃ es, validate (fuel + 1) (.object .forbid fields) (.obj entries) path = .errs es ∧
      FieldError.unexpectedField (path ++ [.field k]) ∈ es := by
  have hx : FieldError.unexpectedField (path ++ [.field k]) ∈
      extraFieldErrors .forbid fields entries path := by
    simp only [extraFieldErrors]
    refine List.mem_map.mpr ⟨(k, r), List.mem_filter.mpr ⟨hmem, ?_⟩, rfl⟩
    simp
    intro hm
    rw [(stringContains_iff (fieldNames fields) k).mpr hm] at hnot
    exact Bool.noConfusion hnot
  rcases hvf : validateFields (validate fuel) entries path fields with ⟨fes, pvs⟩
  have hmem2 : FieldError.unexpectedField (path ++ [.field k]) ∈
      fes ++ extraFieldErrors .forbid fields entries path := List.mem_append_right fes hx
  rcases hall : fes ++ extraFieldErrors .forbid fields entries path with _ | ⟨e, tl⟩
  · rw [hall] at hmem2
    simp at hmem2
  · refine ⟨e :: tl, ?_, hall ▸ hmem2⟩
    simp only [validate, validateStep, hvf, hall]

/-- Witness for C4: raw `{a: 1, b: 2}` against forbid-extra object `{a}`
yields an `UnexpectedField` error at `["b"]` even though `a` is valid. -/
theorem claim_c4_forbid_extra_witness :
    (("b", Raw.int 2) ∈ [("a", Raw.int 1), ("b", Raw.int 2)]) ∧
    (fieldNames [("a", true, none, SchemaNode.scalar .int [])]).contains "b" = false ∧
    ∃ es, validate 2 (.object .forbid [("a", true, none, .scalar .int [])])
        (.obj [("a", .int 1), ("b", .int 2)]) [] = .errs es ∧
      FieldError.unexpectedField [.field "b"] ∈ es :=
  ⟨by simp, rfl, claim_c4_forbid_extra 1 _ _ "b" (.int 2) [] (by simp) rfl⟩

/-- C5 (amended): for every well-formed schema `S` that contains no
`union` node and declares no field defaults, and every `Value` `v` that
`validate(S, raw)` successfully produced, encoding `v` back to wire form
and re-validating yields the same `v` (a second pass is the identity).
Without those restrictions the claim fails: a default is trusted
unvalidated on the first pass but re-checked once encoded (see the
counterexample), and an earlier union candidate can capture the re-encoded
form. -/
theorem claim_c5_second_pass_identity (S : SchemaNode) (raw : Raw) (v : Value)
    (hwf : wellFormed S = true) (huf : unionFree S = true) (hdf : defaultFree S = true)
    (h : validateTop S raw = .ok v) :
    validateTop S (encodeValue v) = .ok v :=
  validate_encode_roundtrip maxDepth S raw [] [] v hwf huf hdf h

/-- Witness for C5 at a string scalar schema. -/
theorem claim_c5_second_pass_identity_witness :
    wellFormed (.scalar .str []) = true ∧
    validateTop (.scalar .str []) (.str "hi") = .ok (.str "hi") ∧
    validateTop (.scalar .str []) (encodeValue (.str "hi")) = .ok (.str "hi") :=
  ⟨by simp [wellFormed], rfl,
   claim_c5_second_pass_identity _ (.str "hi") _ (by simp [wellFormed])
     (by simp [unionFree]) (by simp [defaultFree]) rfl⟩

/-- C5 counterexample to the claim as stated: the well-formed schema
`{q: string (required, min_length 3, default "ab")}` validates the empty
raw mapping to `{q: "ab"}` (the default is trusted, not re-validated), but
re-encoding and re-validating that value fails with a
`ConstraintViolation(min_length)` — the second pass is not the identity. -/
theorem claim_c5_counterexample :
    wellFormed (.object .ignore
      [("q", true, some (.str "ab"), .scalar .str [.minLength 3])]) = true ∧
    validateTop (.object .ignore
        [("q", true, some (.str "ab"), .scalar .str [.minLength 3])])
      (.obj []) = .ok (.obj [("q", .str "ab")]) ∧
    validateTop (.object .ignore
        [("q", true, some (.str "ab"), .scalar .str [.minLength 3])])
      (encodeValue (.obj [("q", .str "ab")])) =
      .errs [.constraintViolation [.field "q"] "min_length" (.str "ab")] := by
  refine ⟨by simp [wellFormed, wellFormedFields, nodupNames, fieldNames], rfl, ?_⟩
  have he : encodeValue (Value.obj [("q", .str "ab")]) = Raw.obj [("q", .str "ab")] := by
    simp [encodeValue, encodeValueObj]
  rw [he]
  rfl

/-- C6: for a map schema with integer keys and float values, `validate` on
the raw mapping `{"1": 2, "2": 3.5}` succeeds and yields exactly the pairs
`(1, 2.0)` and `(2, 3.5)`; and for every raw string key, the key coerces
to an integer if and only if the string consists purely of decimal digits,
optionally prefixed with a single `-`. -/
theorem claim_c6_map_int_keys :
    validateTop (.mapS .int (.scalar .float []))
      (.obj [("1", .int 2), ("2", .float (7 / 2))]) =
      .ok (.mapV [(.int 1, .float 2), (.int 2, .float (7 / 2))]) ∧
    ∀ s : String, (coerceKey .int s).isSome = isIntKeyFormat s :=
  ⟨rfl, coerceKey_int_format⟩

/-- C7: boolean coercion accepts exactly the native boolean values and the
literal tokens `true`/`false`; every other raw input — in particular the
strings `"yes"` and `"1"` — is rejected with a `TypeCoercionError`. -/
theorem claim_c7_bool_strict :
    (∀ (fuel : Nat) (raw : Raw) (path : List PathItem) (b : Bool),
      validate (fuel + 1) (.scalar .bool []) raw path = .ok (.bool b) ↔
        (raw = .bool b ∨ (raw = .str "true" ∧ b = true) ∨
          (raw = .str "false" ∧ b = false))) ∧
    (∀ (fuel : Nat) (raw : Raw) (path : List PathItem),
      (∃ b, validate (fuel + 1) (.scalar .bool []) raw path = .ok (.bool b)) ∨
      validate (fuel + 1) (.scalar .bool []) raw path =
        .errs [.typeCoercionError path "boolean" (rawKindName raw)]) ∧
    validateTop (.scalar .bool []) (.str "yes") =
      .errs [.typeCoercionError [] "boolean" "string"] ∧
    validateTop (.scalar .bool []) (.str "1") =
      .errs [.typeCoercionError [] "boolean" "string"] := by
  refine ⟨?_, ?_, rfl, rfl⟩
  case refine_2 =>
    intro fuel raw path
    cases raw <;>
      simp [validate, validateStep, coerceScalar, constraintErrors, rawKindName, primName]
    case str s =>
      by_cases ht : s = "true"
      · subst ht; simp
      · by_cases hf : s = "false"
        · subst hf; simp
        · simp [ht, hf]
  intro fuel raw path b
  constructor
  · intro h
    cases raw <;> simp only [validate, validateStep, coerceScalar] at h
    case bool b' =>
      simp [constraintErrors] at h
      exact Or.inl (by rw [h])
    case str s =>
      by_cases ht : s = "true"
      · subst ht
        simp [constraintErrors] at h
        exact Or.inr (Or.inl ⟨rfl, h⟩)
      · by_cases hf : s = "false"
        · subst hf
          simp [ht, constraintErrors] at h
          exact Or.inr (Or.inr ⟨rfl, h⟩)
        · simp [ht, hf] at h
    all_goals simp at h
  · rintro (rfl | ⟨rfl, rfl⟩ | ⟨rfl, rfl⟩) <;>
      simp [validate, validateStep, coerceScalar, constraintErrors]

end Engine

/-- C8: for every integer `item_id` the route accepts (`gt=2`), `read_item`
in `src/xiv_handling_errors.py` raises `HTTPException` with status 404,
detail "Item not found" and header `X-Error`: the membership test
`item_id not in items` is true for every integer because the only key of
`items` is the string `"foo"`, so the success branch is unreachable. -/
theorem claim_c8_read_item_always_404 (item_id : Int) (h : 2 < item_id) :
    HandlingErrors.read_item item_id =
      .raise 404 "Item not found" [("X-Error", "There goes my error")] := rfl

/-- Witness for C8 at `item_id = 3`. -/
theorem claim_c8_read_item_always_404_witness :
    2 < (3 : Int) ∧
    HandlingErrors.read_item 3 =
      .raise 404 "Item not found" [("X-Error", "There goes my error")] :=
  ⟨by decide, claim_c8_read_item_always_404 3 (by decide)⟩

/-- C9: `create_item` in `src/iv_request_body.py` returns a dict containing
the key `"price_with_tax"` if and only if `item.tax` is neither `None` nor
`0.0` (Python truthiness, not a `None` test), with value
`item.price + item.tax` when present; an explicit tax of `0.0` behaves
exactly like an absent tax. -/
theorem claim_c9_price_with_tax (item : RequestBody.Item) :
    (RequestBody.create_item item).lookup "price_with_tax" =
      (match item.tax with
       | some t => if t = 0 then none else some (.num (item.price + t))
       | none => none) ∧
    (RequestBody.create_item { item with tax := some 0 }).lookup "price_with_tax" =
      (RequestBody.create_item { item with tax := none }).lookup "price_with_tax" := by
  constructor
  · rcases ht : item.tax with _ | t
    · simp [RequestBody.create_item, RequestBody.modelDump, ht, List.lookup]
    · by_cases h0 : t = 0 <;>
        simp [RequestBody.create_item, RequestBody.modelDump, ht, h0, List.lookup]
  · simp [RequestBody.create_item, RequestBody.modelDump, List.lookup]

/-- C10: `fake_save_user` in `src/xii_extra_models.py` returns a `UserInDB`
whose `username`, `email` and `full_name` equal the input's fields and
whose `hashed_password` is `"supersecret"` prepended to the plaintext
password; it is a pure function of the input, which it does not mutate. -/
theorem claim_c10_fake_save_user (u : ExtraModels.UserIn) :
    ExtraModels.fake_save_user u =
      { username := u.username, email := u.email, full_name := u.full_name,
        hashed_password := "supersecret" ++ u.password } := rfl
